import Mathlib

/-!
Verification development for the alignment engine of
`merge_two_json_modify_english.py` (the repository's TOC/content merger).

Strings are modelled as `List Char`; Python's `difflib.SequenceMatcher`
ratio (no junk heuristic fires on these short strings) is modelled exactly,
with the float comparisons `ratio > 0.9` / `ratio > 0.8` rendered as exact
rational comparisons (`20*M > 9*T`, resp. `20*M > 8*T`); the float rounding
of CPython could only disagree at string lengths far beyond any real title.
The external GPT call is modelled as an oracle: a stream of optional raw
responses, one per call (`none` = the API call raised).
-/

set_option maxHeartbeats 1000000
set_option maxRecDepth 10000

abbrev Str := List Char

/-- A TOC entry (class `TocChunk`, lines 33-46).  `id` models Python object
identity: `load_toc` creates a fresh object per JSON row, so two loaded
chunks are `==`-equal in Python iff they are the same row.  The class
defines no `__eq__`, hence `list.index` compares by identity. -/
structure TocChunk where
  id : Nat
  chapter : Str
  «section» : Str
deriving DecidableEq

/-- A content chunk (class `ContentChunk`, lines 48-58). -/
structure ContentChunk where
  subsection : Str
  content : Str
deriving DecidableEq

/-- One merged output row (the dict built at lines 445-450). -/
structure MergedRecord where
  Chapter : Str
  Section : Str
  Subsection : Str
  Content : Str
deriving DecidableEq

/-- The core of `load_toc` (lines 60-80): one `TocChunk` per parsed JSON row,
in order; the `id` field records the creation position (object identity). -/
def load_toc (rows : List (Str × Str)) : List TocChunk :=
  rows.enum.map fun p => ⟨p.1, p.2.1, p.2.2⟩

/-- Python whitespace for `str.split()` / `str.strip()` (ASCII fragment). -/
def isPySpace (c : Char) : Bool :=
  c = ' ' || c = '\t' || c = '\n' || c = '\r' || c = '\x0b' || c = '\x0c'

/-- Helper for `pySplit`: `acc` holds the current word reversed. -/
def pySplitAux : List Char → List Char → List Str
  | [], acc => if acc = [] then [] else [acc.reverse]
  | c :: rest, acc =>
      if isPySpace c then
        if acc = [] then pySplitAux rest [] else acc.reverse :: pySplitAux rest []
      else pySplitAux rest (c :: acc)

/-- Python `s.split()` with no argument: split on whitespace runs, no empty
words. -/
def pySplit (s : Str) : List Str := pySplitAux s []

/-- Python `str.lower()` (ASCII fragment, via `Char.toLower`). -/
def lowerStr (s : Str) : Str := s.map Char.toLower

/-- Length of the common prefix of two strings (the run of equal characters). -/
def commonRun : Str → Str → Nat
  | a :: as, b :: bs => if a = b then commonRun as bs + 1 else 0
  | _, _ => 0

/-- Inner loop of the longest-match search: scan all start positions `j` of
`b` for a fixed start `i` of `a`, replacing the best triple only on a
strictly longer run (so the earliest maximal match is kept, as
`difflib.SequenceMatcher.find_longest_match` documents). -/
def bestInner (a b : Str) (i : Nat) (best : Nat × Nat × Nat) : Nat × Nat × Nat :=
  (List.range b.length).foldl
    (fun best j =>
      if best.2.2 < commonRun (a.drop i) (b.drop j)
      then (i, j, commonRun (a.drop i) (b.drop j)) else best)
    best

/-- `find_longest_match` over the whole ranges of junk-free `a`, `b`:
the maximal matching block, earliest in `a`, then earliest in `b`. -/
def bestMatch (a b : Str) : Nat × Nat × Nat :=
  (List.range a.length).foldl (fun best i => bestInner a b i best) (0, 0, 0)

/-- Total size of `get_matching_blocks`: take the longest match, recurse on
the pieces to its left and to its right.  Fuel-driven; `a.length + b.length`
units always suffice (each level consumes at least one character of each
side), see `matchTotal`. -/
def matchTotalF : Nat → Str → Str → Nat
  | 0, _, _ => 0
  | fuel + 1, a, b =>
      let m := bestMatch a b
      if m.2.2 = 0 then 0
      else
        m.2.2 + matchTotalF fuel (a.take m.1) (b.take m.2.1)
          + matchTotalF fuel (a.drop (m.1 + m.2.2)) (b.drop (m.2.1 + m.2.2))

/-- `M` of `SequenceMatcher(None, a, b)`: the number of matched characters. -/
def matchTotal (a b : Str) : Nat := matchTotalF (a.length + b.length) a b

/-- `similar_text(t1, t2) > num/den` (lines 372-378): the ratio
`2*M/T` of `SequenceMatcher` on the lowercased strings, compared exactly. -/
def similar_text_gt (t1 t2 : Str) (num den : Nat) : Bool :=
  den * (2 * matchTotal (lowerStr t1) (lowerStr t2))
    > num * ((lowerStr t1).length + (lowerStr t2).length)

/-- The anchor test of `find_alignment_points` for one content chunk against
one TOC entry (lines 360-368): skip single-word section titles, then demand
similarity above 0.9. -/
def anchorHit (toc : TocChunk) (content : ContentChunk) : Bool :=
  if (pySplit toc.«section»).length ≤ 1 then false
  else similar_text_gt toc.«section» content.subsection 9 10

/-- Whether any TOC entry anchors this content chunk (the inner `for`/`break`
of lines 360-368 appends the chunk index exactly when some entry hits). -/
def chunkHasAnchor (toc_chunks : List TocChunk) (content : ContentChunk) : Bool :=
  toc_chunks.any fun toc => anchorHit toc content

/-- The outer loop of `find_alignment_points` (lines 357-370), carrying the
running content index `i`. -/
def fapAux (toc_chunks : List TocChunk) : Nat → List ContentChunk → List Nat
  | _, [] => []
  | i, content :: rest =>
      if chunkHasAnchor toc_chunks content then i :: fapAux toc_chunks (i + 1) rest
      else fapAux toc_chunks (i + 1) rest

/-- `find_alignment_points` (lines 351-370): the content indices whose
subsection is highly similar to some multi-word TOC section. -/
def find_alignment_points (toc_chunks : List TocChunk)
    (content_chunks : List ContentChunk) : List Nat :=
  fapAux toc_chunks 0 content_chunks

/-- `get_toc_window` (lines 110-117): `start = max(0, cur - 2)` (Nat
subtraction), `end = min(len, start + window_size)`, slice `[start:end]`.
Call sites pass `window_size = 7` (the Python default). -/
def get_toc_window (toc_chunks : List TocChunk) (current_index : Nat)
    (window_size : Nat) : List TocChunk :=
  let start_idx := current_index - 2
  let end_idx := min toc_chunks.length (start_idx + window_size)
  (toc_chunks.drop start_idx).take (end_idx - start_idx)

/-- Modelled from the spec (§4.3): the WindowSelector formula
`outline[max(0, cursor-B) : max(0, cursor-B)+W]` with `B = 2`, `W = 7`,
clamped to the outline bounds by the slice itself. -/
def window_spec (outline : List TocChunk) (cursor : Nat) : List TocChunk :=
  (outline.drop (max 0 (cursor - 2))).take 7

/-- Python `s.strip()` (ASCII whitespace fragment). -/
def pyStrip (s : Str) : Str :=
  ((s.dropWhile isPySpace).reverse.dropWhile isPySpace).reverse

/-- Python `s.split(',')`: split on every comma, keeping empty pieces
(`"".split(',') == ['']`). -/
def pySplitComma : Str → List Str
  | [] => [[]]
  | c :: rest =>
      if c = ',' then [] :: pySplitComma rest
      else
        match pySplitComma rest with
        | [] => [[c]]
        | p :: ps => (c :: p) :: ps

/-- Digit tail of Python `int()`: after the first digit, single underscores
are allowed between digits only. -/
def parseDigitsAux (acc : Nat) : Str → Option Nat
  | [] => some acc
  | '_' :: c :: rest =>
      if c.isDigit then parseDigitsAux (acc * 10 + (c.toNat - 48)) rest else none
  | ['_'] => none
  | c :: rest =>
      if c.isDigit then parseDigitsAux (acc * 10 + (c.toNat - 48)) rest else none

/-- Nonempty digit run (first character must be a digit). -/
def pyParseNat : Str → Option Nat
  | [] => none
  | c :: rest => if c.isDigit then parseDigitsAux (c.toNat - 48) rest else none

/-- Python `int(s)`: surrounding whitespace is tolerated (so the extra
`.strip()` at line 203 is redundant), then an optional sign and digits
(ASCII; raising `ValueError` is `none`). -/
def pyParseInt (s : Str) : Option Int :=
  match pyStrip s with
  | '+' :: rest => (pyParseNat rest).map Int.ofNat
  | '-' :: rest => (pyParseNat rest).map fun n => -(n : Int)
  | l => (pyParseNat l).map Int.ofNat

/-- Effect of a list comprehension whose element expression may raise
(`none` = the whole comprehension raises). -/
def optMapList {α β : Type} (f : α → Option β) : List α → Option (List β)
  | [] => some []
  | x :: xs =>
      match f x, optMapList f xs with
      | some y, some ys => some (y :: ys)
      | _, _ => none

/-- Line 203: `[int(idx.strip()) - 1 for idx in response.strip().split(',')]`;
any piece that fails `int()` fails the whole comprehension (`none`). -/
def parseIndices (r : Str) : Option (List Int) :=
  optMapList (fun piece => (pyParseInt piece).map (· - 1)) (pySplitComma (pyStrip r))

/-- Levels of the logger used by `ContentMatcher` (both failure branches call
`self.logger.error`, lines 212 and 216). -/
inductive LogLevel where
  | error
  | warning
  | info
deriving DecidableEq

/-- How many chunks lines 149-164 send: the current one plus up to two
following chunks of `content_list`. -/
def numChunksSent (content_list_len current_index : Nat) : Nat :=
  1 + (if current_index + 1 < content_list_len then 1 else 0)
    + (if current_index + 2 < content_list_len then 1 else 0)

/-- The success branch of lines 204-210: each parsed 0-based index selects
`toc_options[idx]` when in range, else `toc_options[0]`; on an empty option
list either lookup raises `IndexError` (`none`), which the method does not
catch at that point. -/
def selectOptions (toc_options : List TocChunk) (indices : List Int) :
    Option (List TocChunk) :=
  optMapList
    (fun idx =>
      if 0 ≤ idx ∧ idx < (toc_options.length : Int) then toc_options.get? idx.toNat
      else toc_options.get? 0)
    indices

/-- `ContentMatcher.match_content_to_toc` (lines 143-217) with the API call
abstracted: `resp = none` models the call raising (outer `except`), `some r`
a returned message.  Result: the selections (`none` = an uncaught
`IndexError` from `toc_options[0]` on an empty window) and the log entries
emitted. -/
def match_content_to_toc (resp : Option Str) (content : ContentChunk)
    (content_list : List ContentChunk) (current_index : Nat)
    (toc_options : List TocChunk) : Option (List TocChunk) × List LogLevel :=
  let chunksCount := numChunksSent content_list.length current_index
  match resp with
  | none =>
      match toc_options with
      | [] => (none, [LogLevel.error])
      | o :: _ => (some (List.replicate chunksCount o), [LogLevel.error])
  | some r =>
      match parseIndices r with
      | none =>
          match toc_options with
          | [] => (none, [LogLevel.error])
          | o :: _ => (some (List.replicate chunksCount o), [LogLevel.error])
      | some indices =>
          match selectOptions toc_options indices with
          | some results => (some results, [])
          | none => (none, [LogLevel.error])

/-- Index of the first element satisfying `p` (Python `list.index` shape). -/
def firstIdx (p : TocChunk → Bool) : List TocChunk → Option Nat
  | [] => none
  | t :: ts => if p t then some 0 else (firstIdx p ts).map (· + 1)

/-- `toc_segment.index(matched_toc)` (line 455): first position that is
`==`-equal; with per-row ids (object identity) this is the object's own
position.  `none` models the `ValueError` branch (line 457). -/
def pyIndex (l : List TocChunk) (x : TocChunk) : Option Nat :=
  firstIdx (fun t => decide (t = x)) l

/-- The inner relocation scan of lines 405-413:
`for i, toc in enumerate(toc_chunks[current_toc_start:], current_toc_start)`
with the 0.8 similarity test; returns the absolute index of the first hit. -/
def findTocFrom (toc_chunks : List TocChunk) (current_toc_start : Nat)
    (subsec : Str) : Option Nat :=
  (firstIdx (fun toc => similar_text_gt toc.«section» subsec 8 10)
      (toc_chunks.drop current_toc_start)).map (current_toc_start + ·)

/-- The mutable state of the segmentation loop (lines 398-413). -/
structure SegBuildState where
  start : Nat
  current_toc_start : Nat
  content_segments : List (Nat × Nat)
  toc_segments : List (List TocChunk)
deriving DecidableEq

/-- One iteration of `for point in alignment_points` (lines 403-413); if the
relocation scan finds nothing, the `break` is never taken and the state is
unchanged (the anchor is skipped).  Out-of-range `point` cannot occur for
points produced by `find_alignment_points`. -/
def segmentStep (toc_chunks : List TocChunk) (content_chunks : List ContentChunk)
    (st : SegBuildState) (point : Nat) : SegBuildState :=
  match findTocFrom toc_chunks st.current_toc_start
      ((content_chunks.getD point ⟨[], []⟩).subsection) with
  | none => st
  | some i =>
      { start := point
        current_toc_start := i
        content_segments := st.content_segments ++ [(st.start, point)]
        toc_segments := st.toc_segments ++
          [(toc_chunks.drop st.current_toc_start).take (i + 1 - st.current_toc_start)] }

/-- State after the whole `for point in alignment_points` loop. -/
def buildSegmentsState (toc_chunks : List TocChunk) (content_chunks : List ContentChunk)
    (points : List Nat) : SegBuildState :=
  points.foldl (segmentStep toc_chunks content_chunks) ⟨0, 0, [], []⟩

/-- The content ranges handed to the per-segment loop: the loop's appends
plus the final `(start, len(content_chunks))` of line 416. -/
def contentSegments (toc_chunks : List TocChunk) (content_chunks : List ContentChunk) :
    List (Nat × Nat) :=
  let st := buildSegmentsState toc_chunks content_chunks
    (find_alignment_points toc_chunks content_chunks)
  st.content_segments ++ [(st.start, content_chunks.length)]

/-- The TOC slices handed to the per-segment loop: the loop's appends plus
the final `toc_chunks[current_toc_start:]` of line 417. -/
def tocSegments (toc_chunks : List TocChunk) (content_chunks : List ContentChunk) :
    List (List TocChunk) :=
  let st := buildSegmentsState toc_chunks content_chunks
    (find_alignment_points toc_chunks content_chunks)
  st.toc_segments ++ [toc_chunks.drop st.current_toc_start]

/-- The external GPT service: one optional raw response per call, indexed by
the number of calls made before it (`none` = the call raised). -/
abbrev Oracle := Nat → Option Str

/-- The engine state inside one segment (lines 424-458): the segment-local
TOC cursor, the global count of oracle calls made so far, and the
accumulated `final_results`. -/
structure SegRunState where
  current_toc_index : Nat
  callCount : Nat
  final_results : List MergedRecord
deriving DecidableEq

/-- One iteration of the chunk loop (lines 427-458): window, classify, emit
the merged record for the first selection, relocate the cursor with
`toc_segment.index` (`ValueError` leaves it unchanged). -/
def chunkStep (oracle : Oracle) (toc_segment : List TocChunk)
    (segment_content : List ContentChunk) (st : SegRunState) (i : Nat) :
    Option SegRunState :=
  let toc_window := get_toc_window toc_segment st.current_toc_index 7
  let content_chunk := segment_content.getD i ⟨[], []⟩
  match (match_content_to_toc (oracle st.callCount) content_chunk
      segment_content i toc_window).1 with
  | none => none
  | some matched_tocs =>
      match matched_tocs with
      | [] => some { st with callCount := st.callCount + 1 }
      | matched_toc :: _ =>
          let merged : MergedRecord :=
            ⟨matched_toc.chapter, matched_toc.«section»,
              content_chunk.subsection, content_chunk.content⟩
          let newCur :=
            match pyIndex toc_segment matched_toc with
            | some m => m
            | none => st.current_toc_index
          some ⟨newCur, st.callCount + 1, st.final_results ++ [merged]⟩

/-- Processing of one `(content_segment, toc_segment)` pair (lines 422-458):
slice the content, reset the cursor to 0, run the chunk loop. -/
def segRun (oracle : Oracle) (content_chunks : List ContentChunk)
    (acc : Nat × List MergedRecord) (seg : (Nat × Nat) × List TocChunk) :
    Option (Nat × List MergedRecord) := do
  let segment_content := (content_chunks.drop seg.1.1).take (seg.1.2 - seg.1.1)
  let st ← (List.range segment_content.length).foldlM
    (chunkStep oracle seg.2 segment_content) ⟨0, acc.1, acc.2⟩
  pure (st.callCount, st.final_results)

/-- The loop over all segments, accumulating `final_results`. -/
def runSegments (oracle : Oracle) (content_chunks : List ContentChunk)
    (segs : List ((Nat × Nat) × List TocChunk)) : Option (Nat × List MergedRecord) :=
  segs.foldlM (segRun oracle content_chunks) (0, [])

/-- `process_book_in_segments` (lines 380-463): anchors, segmentation, then
the per-segment classification loop.  `none` models an uncaught exception
(propagated to `process_single_book`); zero anchors returns `some []`
before any oracle call (lines 393-395). -/
def process_book_in_segments (oracle : Oracle) (toc_chunks : List TocChunk)
    (content_chunks : List ContentChunk) : Option (List MergedRecord) :=
  let alignment_points := find_alignment_points toc_chunks content_chunks
  if alignment_points.isEmpty then some []
  else
    (runSegments oracle content_chunks
        ((contentSegments toc_chunks content_chunks).zip
          (tocSegments toc_chunks content_chunks))).map Prod.snd

/-- Models lines 253-254 and 262-275 of `process_single_book`: the output
file is written (and a path returned) iff the merge produced a non-empty
result list; an exception (`none`) or an empty result makes the book a
failure (`return None` through the `except` block). -/
def process_single_book_writes (merged : Option (List MergedRecord)) : Bool :=
  match merged with
  | none => false
  | some [] => false
  | some (_ :: _) => true

/-- The tally of lines 307-318 in `process_all_books`: each book's outcome
is counted independently as a success or a failure. -/
def batch_counts (outcomes : List Bool) : Nat × Nat :=
  outcomes.foldl
    (fun acc ok => if ok then (acc.1 + 1, acc.2) else (acc.1, acc.2 + 1)) (0, 0)

/-- Modelled from the spec (§4.1, the monotonic-scan reading under test in
the corresponding claim): the anchor scan for each chunk starts at the
outline position of the previous anchor and continues from the matched
position for subsequent chunks. -/
def findAnchorFrom (toc_chunks : List TocChunk) (fromPos : Nat)
    (c : ContentChunk) : Option Nat :=
  (firstIdx (fun toc => anchorHit toc c) (toc_chunks.drop fromPos)).map (fromPos + ·)

/-- Modelled from the spec (§4.1): the chunk loop of the monotonic
AnchorFinder, carrying the outline scan position. -/
def fapSpecAux (toc_chunks : List TocChunk) : Nat → Nat → List ContentChunk → List Nat
  | _, _, [] => []
  | tocPos, i, c :: rest =>
      match findAnchorFrom toc_chunks tocPos c with
      | some j => i :: fapSpecAux toc_chunks j (i + 1) rest
      | none => fapSpecAux toc_chunks tocPos (i + 1) rest

/-- Modelled from the spec (§4.1): `findAnchors` as the spec words it, with
the scan never revisiting outline entries before the previous anchor. -/
def find_alignment_points_spec (toc_chunks : List TocChunk)
    (content_chunks : List ContentChunk) : List Nat :=
  fapSpecAux toc_chunks 0 0 content_chunks

/-- `segs` is a gapless, overlap-free run of half-open ranges from `a` to
`b`: each range starts where the previous one ended. -/
def ChainFrom : Nat → List (Nat × Nat) → Nat → Prop
  | a, [], b => a = b
  | a, s :: rest, b => s.1 = a ∧ a ≤ s.2 ∧ ChainFrom s.2 rest b

/-- The TOC slices appended by the segmentation loop, read left to right:
starting at outline position `a`, each slice is `tocs[a : i+1]` for the
relocated index `i` of its anchor, and the next slice starts at `i`;
`b` is the scan position left for the trailing slice. -/
def TocChainFrom (tocs : List TocChunk) : Nat → List (List TocChunk) → Nat → Prop
  | a, [], b => a = b
  | a, sg :: rest, b =>
      ∃ i, a ≤ i ∧ i < tocs.length ∧ sg = (tocs.drop a).take (i + 1 - a) ∧
        TocChainFrom tocs i rest b

/-- The shape the Segmenter's outline slices must have (leading and interior
slices `tocs[prev : i+1]`, trailing slice `tocs[last:]`). -/
def TocSegsShape (tocs : List TocChunk) : Nat → List (List TocChunk) → Prop
  | _, [] => False
  | a, [sg] => a < tocs.length ∧ sg = tocs.drop a
  | a, sg :: sg2 :: rest =>
      ∃ i, a ≤ i ∧ i < tocs.length ∧ sg = (tocs.drop a).take (i + 1 - a) ∧
        TocSegsShape tocs i (sg2 :: rest)

/-! ## Similarity lemmas -/

theorem commonRun_self (l : Str) : commonRun l l = l.length := by
  induction l with
  | nil => rfl
  | cons c cs ih => simp [commonRun, ih]

theorem commonRun_le_left (a : Str) : ∀ b : Str, commonRun a b ≤ a.length := by
  induction a with
  | nil => intro b; cases b <;> simp [commonRun]
  | cons c cs ih =>
    intro b
    cases b with
    | nil => simp [commonRun]
    | cons d ds =>
      by_cases h : c = d
      · simpa [commonRun, h] using ih ds
      · simp [commonRun, h]

theorem commonRun_le_right (a : Str) : ∀ b : Str, commonRun a b ≤ b.length := by
  induction a with
  | nil => intro b; cases b <;> simp [commonRun]
  | cons c cs ih =>
    intro b
    cases b with
    | nil => simp [commonRun]
    | cons d ds =>
      by_cases h : c = d
      · simpa [commonRun, h] using ih ds
      · simp [commonRun, h]

theorem bestInner_keep (a b : Str) (i : Nat) (best : Nat × Nat × Nat)
    (h : ∀ j : Nat, commonRun (a.drop i) (b.drop j) ≤ best.2.2) :
    bestInner a b i best = best := by
  unfold bestInner
  have aux : ∀ (L : List Nat) (cur : Nat × Nat × Nat), cur = best →
      L.foldl
        (fun best j =>
          if best.2.2 < commonRun (a.drop i) (b.drop j)
          then (i, j, commonRun (a.drop i) (b.drop j)) else best)
        cur = best := by
    intro L
    induction L with
    | nil => intro cur hc; simpa using hc
    | cons j L ih =>
      intro cur hc
      subst hc
      simp only [List.foldl_cons]
      rw [if_neg (by exact Nat.not_lt.mpr (h j))]
      exact ih _ rfl
  exact aux _ best rfl

theorem bestMatch_self (l : Str) (h : l ≠ []) : bestMatch l l = (0, 0, l.length) := by
  unfold bestMatch
  obtain ⟨n, hn⟩ : ∃ n, l.length = n + 1 :=
    ⟨l.length - 1, by have := List.length_pos.mpr h; omega⟩
  have hrange : List.range l.length = 0 :: List.map Nat.succ (List.range n) := by
    rw [hn, List.range_succ_eq_map]
  rw [hrange, List.foldl_cons]
  have step1 : bestInner l l 0 (0, 0, 0) = (0, 0, l.length) := by
    unfold bestInner
    rw [hrange, List.foldl_cons]
    have hpos : (0 : Nat) < commonRun (l.drop 0) (l.drop 0) := by
      simp only [List.drop_zero, commonRun_self]
      omega
    have first : (if (0 : Nat) < commonRun (l.drop 0) (l.drop 0)
        then ((0 : Nat), (0 : Nat), commonRun (l.drop 0) (l.drop 0))
        else ((0 : Nat), (0 : Nat), (0 : Nat))) = (0, 0, l.length) := by
      rw [if_pos hpos]
      simp [commonRun_self]
    rw [first]
    have aux : ∀ (L : List Nat) (cur : Nat × Nat × Nat), cur = ((0 : Nat), (0 : Nat), l.length) →
        (∀ j ∈ L, 1 ≤ j) →
        L.foldl
          (fun best j =>
            if best.2.2 < commonRun (l.drop 0) (l.drop j)
            then ((0 : Nat), j, commonRun (l.drop 0) (l.drop j)) else best)
          cur = (0, 0, l.length) := by
      intro L
      induction L with
      | nil => intro cur hc _; simpa using hc
      | cons j L ih =>
        intro cur hc hL
        subst hc
        simp only [List.foldl_cons]
        rw [if_neg]
        · exact ih _ rfl fun k hk => hL k (List.mem_cons_of_mem _ hk)
        · have : commonRun (l.drop 0) (l.drop j) ≤ l.length - j :=
            le_trans (commonRun_le_right _ _) (by simp)
          have hj := hL j (List.mem_cons_self _ _)
          simp only [Nat.not_lt]
          omega
    exact aux _ _ rfl (by intro j hj; simp at hj; omega)
  rw [step1]
  have aux : ∀ (L : List Nat) (cur : Nat × Nat × Nat), cur = ((0 : Nat), (0 : Nat), l.length) →
      L.foldl (fun best i => bestInner l l i best) cur = (0, 0, l.length) := by
    intro L
    induction L with
    | nil => intro cur hc; simpa using hc
    | cons i L ih =>
      intro cur hc
      subst hc
      simp only [List.foldl_cons]
      rw [bestInner_keep]
      · exact ih _ rfl
      · intro j
        exact le_trans (commonRun_le_left _ _) (by simp)
  exact aux _ _ rfl

theorem matchTotalF_nil (f : Nat) : matchTotalF f [] [] = 0 := by
  cases f <;> rfl

theorem matchTotal_self (l : Str) : matchTotal l l = l.length := by
  cases hl : l with
  | nil => rfl
  | cons c cs =>
    have hne : l ≠ [] := by simp [hl]
    rw [← hl]
    unfold matchTotal
    obtain ⟨f, hf⟩ : ∃ f, l.length + l.length = f + 1 := by
      have := List.length_pos.mpr hne; exact ⟨l.length + l.length - 1, by omega⟩
    rw [hf]
    simp only [matchTotalF, bestMatch_self l hne]
    rw [if_neg (by have := List.length_pos.mpr hne; omega)]
    simp [List.drop_length, matchTotalF_nil]

theorem lowerStr_length (s : Str) : (lowerStr s).length = s.length := by
  simp [lowerStr]

theorem similar_text_gt_of_lower_eq (a b : Str) (hne : a ≠ [])
    (h : lowerStr a = lowerStr b) : similar_text_gt a b 9 10 = true := by
  unfold similar_text_gt
  rw [h, matchTotal_self, decide_eq_true_eq]
  have hpos : 0 < (lowerStr b).length := by
    rw [← h, lowerStr_length]
    exact List.length_pos.mpr hne
  omega

/-! ## Anchor-scan lemmas -/

theorem anchorHit_eq_true (t : TocChunk) (c : ContentChunk) :
    anchorHit t c = true ↔
      2 ≤ (pySplit t.«section»).length ∧
        similar_text_gt t.«section» c.subsection 9 10 = true := by
  unfold anchorHit
  by_cases h : (pySplit t.«section»).length ≤ 1
  · simp [h]; omega
  · simp [h]; omega

theorem fapAux_mem (tocs : List TocChunk) :
    ∀ (l : List ContentChunk) (i j : Nat),
      j ∈ fapAux tocs i l ↔
        ∃ k c, l.get? k = some c ∧ j = i + k ∧ chunkHasAnchor tocs c = true := by
  intro l
  induction l with
  | nil => intro i j; simp [fapAux]
  | cons c rest ih =>
    intro i j
    by_cases h : chunkHasAnchor tocs c
    · rw [fapAux, if_pos h, List.mem_cons]
      constructor
      · rintro (rfl | hj)
        · exact ⟨0, c, rfl, by omega, h⟩
        · obtain ⟨k, c', hk, rfl, hc⟩ := (ih (i + 1) _).1 hj
          exact ⟨k + 1, c', by simpa using hk, by omega, hc⟩
      · rintro ⟨k, c', hk, rfl, hc⟩
        cases k with
        | zero => left; omega
        | succ k =>
          right
          exact (ih (i + 1) _).2 ⟨k, c', by simpa using hk, by omega, hc⟩
    · rw [fapAux, if_neg h]
      rw [ih (i + 1)]
      constructor
      · rintro ⟨k, c', hk, rfl, hc⟩
        exact ⟨k + 1, c', by simpa using hk, by omega, hc⟩
      · rintro ⟨k, c', hk, rfl, hc⟩
        cases k with
        | zero =>
          exfalso
          simp only [List.get?_cons_zero, Option.some_inj] at hk
          exact h (hk ▸ hc)
        | succ k =>
          exact ⟨k, c', by simpa using hk, by omega, hc⟩

theorem fapAux_lt (tocs : List TocChunk) (l : List ContentChunk) (i j : Nat)
    (hj : j ∈ fapAux tocs i l) : i ≤ j ∧ j < i + l.length := by
  obtain ⟨k, c, hk, rfl, -⟩ := (fapAux_mem tocs l i j).1 hj
  obtain ⟨hlt, -⟩ := List.get?_eq_some.mp hk
  omega

theorem fapAux_sorted (tocs : List TocChunk) :
    ∀ (l : List ContentChunk) (i : Nat), (fapAux tocs i l).Sorted (· < ·) := by
  intro l
  induction l with
  | nil => intro i; simp [fapAux]
  | cons c rest ih =>
    intro i
    by_cases h : chunkHasAnchor tocs c
    · rw [fapAux, if_pos h]
      refine List.sorted_cons.mpr ⟨?_, ih (i + 1)⟩
      intro b hb
      have := (fapAux_lt tocs rest (i + 1) b hb).1
      omega
    · rw [fapAux, if_neg h]
      exact ih (i + 1)

theorem find_alignment_points_mem (tocs : List TocChunk)
    (contents : List ContentChunk) (i : Nat) :
    i ∈ find_alignment_points tocs contents ↔
      ∃ c, contents.get? i = some c ∧ chunkHasAnchor tocs c = true := by
  unfold find_alignment_points
  rw [fapAux_mem]
  constructor
  · rintro ⟨k, c, hk, rfl, hc⟩
    exact ⟨c, by simpa using hk, hc⟩
  · rintro ⟨c, hc, h⟩
    exact ⟨i, c, hc, by omega, h⟩

/-! ## Claims about the AnchorFinder (scan order, exact titles, single words) -/

/-- Counterexample to the monotone-scan claim: with outline sections
`"aa bb", "cc dd"` and content subsections `"cc dd", "aa bb"`, the code
anchors BOTH chunks (the second via outline entry 0, which lies before the
first anchor's outline entry 1 — a re-scan of earlier outline entries),
while the spec's monotone scan yields only the first anchor. -/
theorem anchor_scan_monotone_counterexample :
    find_alignment_points
        [⟨0, "x".toList, "aa bb".toList⟩, ⟨1, "y".toList, "cc dd".toList⟩]
        [⟨"cc dd".toList, "p".toList⟩, ⟨"aa bb".toList, "q".toList⟩] = [0, 1]
    ∧ find_alignment_points_spec
        [⟨0, "x".toList, "aa bb".toList⟩, ⟨1, "y".toList, "cc dd".toList⟩]
        [⟨"cc dd".toList, "p".toList⟩, ⟨"aa bb".toList, "q".toList⟩] = [0] := by
  exact ⟨by decide, by decide⟩

/-- Amended claim: `find_alignment_points` scans the WHOLE outline afresh
for every content chunk (no scan position is carried from the previous
anchor): a chunk's index is recorded iff some outline entry — anywhere in
the outline — passes the word-count filter and the 0.9 similarity test. -/
theorem anchor_scan_restarts_each_chunk (tocs : List TocChunk)
    (contents : List ContentChunk) (i : Nat) :
    i ∈ find_alignment_points tocs contents ↔
      ∃ c, contents.get? i = some c ∧ ∃ t ∈ tocs,
        2 ≤ (pySplit t.«section»).length ∧
        similar_text_gt t.«section» c.subsection 9 10 = true := by
  rw [find_alignment_points_mem]
  unfold chunkHasAnchor
  simp only [List.any_eq_true, anchorHit_eq_true]

theorem chunkHasAnchor_filter (tocs : List TocChunk) (c : ContentChunk) :
    chunkHasAnchor (tocs.filter fun t => 2 ≤ (pySplit t.«section»).length) c
      = chunkHasAnchor tocs c := by
  unfold chunkHasAnchor
  induction tocs with
  | nil => rfl
  | cons t ts ih =>
    by_cases h : 2 ≤ (pySplit t.«section»).length
    · rw [List.filter_cons, if_pos (by simpa using h)]
      simp [List.any_cons, ih]
    · rw [List.filter_cons, if_neg (by simpa using h)]
      have hmiss : anchorHit t c = false := by
        unfold anchorHit
        rw [if_pos (by omega)]
      simp [List.any_cons, hmiss, ih]

theorem fapAux_congr (tocs tocs' : List TocChunk)
    (h : ∀ c, chunkHasAnchor tocs c = chunkHasAnchor tocs' c) :
    ∀ (l : List ContentChunk) (i : Nat), fapAux tocs i l = fapAux tocs' i l := by
  intro l
  induction l with
  | nil => intro i; rfl
  | cons c rest ih =>
    intro i
    rw [fapAux, fapAux, h c, ih (i + 1)]

/-- Claim: a content chunk whose subsection equals (up to case) a multi-word
outline section is always anchored; and single-word outline sections never
contribute an anchor (removing them all changes nothing). -/
theorem exact_title_anchors_and_single_words_never (tocs : List TocChunk)
    (contents : List ContentChunk) :
    (∀ i c t, contents.get? i = some c → t ∈ tocs →
        lowerStr t.«section» = lowerStr c.subsection →
        2 ≤ (pySplit t.«section»).length →
        i ∈ find_alignment_points tocs contents)
    ∧ find_alignment_points tocs contents
        = find_alignment_points (tocs.filter fun t => 2 ≤ (pySplit t.«section»).length)
            contents := by
  constructor
  · intro i c t hi ht hlow hw
    rw [find_alignment_points_mem]
    refine ⟨c, hi, ?_⟩
    unfold chunkHasAnchor
    rw [List.any_eq_true]
    refine ⟨t, ht, ?_⟩
    rw [anchorHit_eq_true]
    refine ⟨hw, similar_text_gt_of_lower_eq _ _ ?_ hlow⟩
    intro hnil
    rw [hnil] at hw
    simp [pySplit, pySplitAux] at hw
  · unfold find_alignment_points
    exact fapAux_congr _ _ (fun c => (chunkHasAnchor_filter tocs c).symm) contents 0

/-- Witness for the exact-title claim at a concrete input. -/
theorem exact_title_anchors_witness :
    0 ∈ find_alignment_points [⟨0, "x".toList, "Aa Bb".toList⟩]
        [⟨"aa bb".toList, "q".toList⟩] :=
  (exact_title_anchors_and_single_words_never
      [⟨0, "x".toList, "Aa Bb".toList⟩] [⟨"aa bb".toList, "q".toList⟩]).1
    0 ⟨"aa bb".toList, "q".toList⟩ ⟨0, "x".toList, "Aa Bb".toList⟩
    (by decide) (by decide) (by decide) (by decide)

/-! ## Claims about the WindowSelector -/

/-- Counterexample: for a non-empty outline slice and a cursor far past its
end, the window is empty, so "length ≥ 1 whenever the slice is non-empty"
does not hold for ALL cursor values. -/
theorem window_nonempty_counterexample :
    ([⟨0, [], []⟩] : List TocChunk) ≠ [] ∧
      get_toc_window [⟨0, [], []⟩] 3 7 = [] := by
  exact ⟨by decide, by decide⟩

/-- Amended claim: the window is the spec's clamped slice and has length at
most 7 for every cursor; it is non-empty whenever the outline slice is
non-empty AND the cursor is below `length + 2` (the backoff), which covers
every cursor the engine can produce. -/
theorem window_slice_bounds (tocs : List TocChunk) (cur : Nat) :
    get_toc_window tocs cur 7 = window_spec tocs cur
    ∧ (get_toc_window tocs cur 7).length ≤ 7
    ∧ (tocs ≠ [] → cur < tocs.length + 2 →
        1 ≤ (get_toc_window tocs cur 7).length) := by
  have hlen : (get_toc_window tocs cur 7).length
      = min (min tocs.length (cur - 2 + 7) - (cur - 2)) (tocs.length - (cur - 2)) := by
    unfold get_toc_window
    simp [List.length_take, List.length_drop]
  refine ⟨?_, ?_, ?_⟩
  · unfold get_toc_window window_spec
    rw [Nat.zero_max]
    rw [List.take_eq_take]
    simp only [List.length_drop]
    omega
  · rw [hlen]; omega
  · intro hne hcur
    have hpos : 0 < tocs.length := List.length_pos.mpr hne
    rw [hlen]
    omega

/-- Witness for the amended window claim at a concrete outline and cursor. -/
theorem window_slice_bounds_witness :
    1 ≤ (get_toc_window [⟨0, [], []⟩] 2 7).length :=
  (window_slice_bounds [⟨0, [], []⟩] 2).2.2 (by decide) (by decide)

/-! ## Oracle-response parsing and selection lemmas -/

theorem pySplitComma_ne_nil (s : Str) : pySplitComma s ≠ [] := by
  cases s with
  | nil => simp [pySplitComma]
  | cons c rest =>
    unfold pySplitComma
    by_cases h : c = ','
    · simp [h]
    · rw [if_neg h]
      cases pySplitComma rest <;> simp

theorem optMapList_length {α β : Type} (f : α → Option β) :
    ∀ (l : List α) (l' : List β), optMapList f l = some l' → l'.length = l.length := by
  intro l
  induction l with
  | nil =>
    intro l' h
    unfold optMapList at h
    cases h
    rfl
  | cons x xs ih =>
    intro l' h
    unfold optMapList at h
    cases hx : f x with
    | none => rw [hx] at h; simp at h
    | some y =>
      rw [hx] at h
      cases hxs : optMapList f xs with
      | none => rw [hxs] at h; simp at h
      | some ys =>
        rw [hxs] at h
        simp only [Option.some_inj] at h
        rw [← h]
        simp [ih ys hxs]

theorem optMapList_some {α β : Type} (f : α → Option β) :
    ∀ l : List α, (∀ x ∈ l, (f x).isSome) →
      ∃ l', optMapList f l = some l' ∧ l'.length = l.length ∧
        ∀ y ∈ l', ∃ x ∈ l, f x = some y := by
  intro l
  induction l with
  | nil => intro _; exact ⟨[], rfl, rfl, by simp⟩
  | cons x xs ih =>
    intro h
    obtain ⟨y, hy⟩ := Option.isSome_iff_exists.mp (h x (List.mem_cons_self _ _))
    obtain ⟨ys, hys, hlen, hmem⟩ := ih fun z hz => h z (List.mem_cons_of_mem _ hz)
    refine ⟨y :: ys, ?_, by simp [hlen], ?_⟩
    · unfold optMapList
      rw [hy, hys]
    · intro z hz
      rcases List.mem_cons.mp hz with rfl | hz
      · exact ⟨x, List.mem_cons_self _ _, hy⟩
      · obtain ⟨x', hx', hfx'⟩ := hmem z hz
        exact ⟨x', List.mem_cons_of_mem _ hx', hfx'⟩

theorem optMapList_get {α β : Type} (f : α → Option β) :
    ∀ (l : List α) (l' : List β), optMapList f l = some l' →
      ∀ j : Nat, (l.get? j).isSome → l'.get? j = (l.get? j).bind f := by
  intro l
  induction l with
  | nil => intro l' h j hj; simp at hj
  | cons x xs ih =>
    intro l' h j hj
    unfold optMapList at h
    cases hx : f x with
    | none => rw [hx] at h; simp at h
    | some y =>
      rw [hx] at h
      cases hxs : optMapList f xs with
      | none => rw [hxs] at h; simp at h
      | some ys =>
        rw [hxs] at h
        simp only [Option.some_inj] at h
        subst h
        cases j with
        | zero => simp [hx]
        | succ j =>
          simp only [List.get?_cons_succ] at hj ⊢
          exact ih ys hxs j hj

theorem parseIndices_ne_nil (r : Str) (indices : List Int)
    (h : parseIndices r = some indices) : indices ≠ [] := by
  unfold parseIndices at h
  intro hnil
  subst hnil
  have := optMapList_length _ _ _ h
  have h2 := pySplitComma_ne_nil (pyStrip r)
  cases hc : pySplitComma (pyStrip r) with
  | nil => exact h2 hc
  | cons p ps => rw [hc] at this; simp at this

theorem firstIdx_lt_length (p : TocChunk → Bool) :
    ∀ (l : List TocChunk) (j : Nat), firstIdx p l = some j → j < l.length := by
  intro l
  induction l with
  | nil => intro j h; simp [firstIdx] at h
  | cons t ts ih =>
    intro j h
    unfold firstIdx at h
    by_cases hp : p t
    · rw [if_pos hp] at h
      simp only [Option.some_inj] at h
      subst h
      simp
    · rw [if_neg hp] at h
      cases hfi : firstIdx p ts with
      | none => rw [hfi] at h; simp at h
      | some j' =>
        rw [hfi] at h
        simp only [Option.map_some', Option.some_inj] at h
        subst h
        have := ih j' hfi
        simp
        omega

theorem pyIndex_isSome_of_mem (x : TocChunk) :
    ∀ l : List TocChunk, x ∈ l → ∃ k, pyIndex l x = some k ∧ k < l.length := by
  intro l
  induction l with
  | nil => intro h; simp at h
  | cons t ts ih =>
    intro h
    unfold pyIndex firstIdx
    by_cases hp : t = x
    · rw [if_pos (by simp [hp])]
      exact ⟨0, rfl, by simp⟩
    · rw [if_neg (by simp [hp])]
      rcases List.mem_cons.mp h with rfl | h
      · exact absurd rfl hp
      · obtain ⟨k, hk, hlt⟩ := ih h
        unfold pyIndex at hk
        rw [hk]
        exact ⟨k + 1, rfl, by simp; omega⟩

/-- The selection wrapper never returns an empty list and never raises when
the window is non-empty, and every selection is drawn from the window. -/
theorem match_content_to_toc_some (resp : Option Str) (content : ContentChunk)
    (content_list : List ContentChunk) (i : Nat) (o : TocChunk)
    (rest : List TocChunk) :
    ∃ m ms, (match_content_to_toc resp content content_list i (o :: rest)).1
        = some (m :: ms) ∧ ∀ x ∈ m :: ms, x ∈ o :: rest := by
  have hk : ∃ k', numChunksSent content_list.length i = k' + 1 :=
    ⟨(if i + 1 < content_list.length then 1 else 0)
        + (if i + 2 < content_list.length then 1 else 0),
      by unfold numChunksSent; omega⟩
  obtain ⟨k', hk'⟩ := hk
  have hrepl : ∃ m ms, some (List.replicate (numChunksSent content_list.length i) o)
      = some (m :: ms) ∧ ∀ x ∈ m :: ms, x ∈ o :: rest := by
    refine ⟨o, List.replicate k' o, ?_, ?_⟩
    · rw [hk', List.replicate_succ]
    · intro x hx
      rw [← List.replicate_succ, ← hk'] at hx
      rw [List.eq_of_mem_replicate hx]
      simp
  cases resp with
  | none => simpa [match_content_to_toc] using hrepl
  | some r =>
    cases hpi : parseIndices r with
    | none => simpa [match_content_to_toc, hpi] using hrepl
    | some indices =>
      have hne := parseIndices_ne_nil r indices hpi
      have hall : ∀ idx ∈ indices,
          ((fun idx =>
              if 0 ≤ idx ∧ idx < (((o :: rest).length : Nat) : Int)
              then (o :: rest).get? idx.toNat
              else (o :: rest).get? 0) idx).isSome := by
        intro idx _
        dsimp only
        by_cases hin : 0 ≤ idx ∧ idx < (((o :: rest).length : Nat) : Int)
        · rw [if_pos hin]
          rw [List.get?_eq_get (by
            have := hin.2
            have h0 := hin.1
            omega)]
          simp
        · rw [if_neg hin]
          simp
      obtain ⟨l', hl', hlen, hmem⟩ := optMapList_some _ indices hall
      cases hl : l' with
      | nil =>
        subst hl
        simp only [List.length_nil] at hlen
        exact absurd (List.length_eq_zero.mp hlen.symm) hne
      | cons m ms =>
        subst hl
        refine ⟨m, ms, ?_, ?_⟩
        · simp only [match_content_to_toc, hpi, selectOptions]
          rw [hl']
        · intro x hx
          obtain ⟨idx, _, hfx⟩ := hmem x hx
          by_cases hin : 0 ≤ idx ∧ idx < (((o :: rest).length : Nat) : Int)
          · rw [if_pos hin] at hfx
            exact List.get?_mem hfx
          · rw [if_neg hin] at hfx
            exact List.get?_mem hfx

/-- The window handed to the classifier is never empty while the cursor is
inside the segment's outline slice, and it only contains entries of that
slice. -/
theorem toc_window_sound (toc_segment : List TocChunk) (cur : Nat)
    (hcur : cur < toc_segment.length) :
    (∃ w ws, get_toc_window toc_segment cur 7 = w :: ws)
    ∧ ∀ x ∈ get_toc_window toc_segment cur 7, x ∈ toc_segment := by
  constructor
  · have hlen : 1 ≤ (get_toc_window toc_segment cur 7).length := by
      unfold get_toc_window
      simp only [List.length_take, List.length_drop]
      omega
    cases hw : get_toc_window toc_segment cur 7 with
    | nil => rw [hw] at hlen; simp at hlen
    | cons w ws => exact ⟨w, ws, rfl⟩
  · intro x hx
    unfold get_toc_window at hx
    exact List.mem_of_mem_drop (List.mem_of_mem_take hx)

/-! ## Chain lemmas for the content-range partition -/

theorem ChainFrom_le : ∀ (l : List (Nat × Nat)) (a b : Nat), ChainFrom a l b → a ≤ b := by
  intro l
  induction l with
  | nil => intro a b h; exact Nat.le_of_eq h
  | cons s rest ih =>
    intro a b h
    obtain ⟨-, hle, hrest⟩ := h
    exact le_trans hle (ih _ _ hrest)

theorem ChainFrom_append : ∀ (l : List (Nat × Nat)) (a b c : Nat),
    ChainFrom a l b → b ≤ c → ChainFrom a (l ++ [(b, c)]) c := by
  intro l
  induction l with
  | nil =>
    intro a b c h hbc
    cases h
    exact ⟨rfl, hbc, rfl⟩
  | cons s rest ih =>
    intro a b c h hbc
    obtain ⟨hs, hle, hrest⟩ := h
    exact ⟨hs, hle, ih _ _ _ hrest hbc⟩

theorem ChainFrom_range_join : ∀ (l : List (Nat × Nat)) (a b : Nat), ChainFrom a l b →
    (l.map fun p => List.range' p.1 (p.2 - p.1)).join = List.range' a (b - a) := by
  intro l
  induction l with
  | nil =>
    intro a b h
    cases h
    simp
  | cons s rest ih =>
    intro a b h
    obtain ⟨hs, hle, hrest⟩ := h
    have hab : s.2 ≤ b := ChainFrom_le _ _ _ hrest
    simp only [List.map_cons, List.join_cons, ih _ _ hrest]
    subst hs
    have := List.range'_append s.1 (s.2 - s.1) (b - s.2) 1
    rw [show s.1 + 1 * (s.2 - s.1) = s.2 by omega] at this
    rw [this]
    congr 1
    omega

theorem ChainFrom_slices_join (contents : List ContentChunk) :
    ∀ (l : List (Nat × Nat)) (a b : Nat), ChainFrom a l b → b ≤ contents.length →
      (l.map fun p => (contents.drop p.1).take (p.2 - p.1)).join
        = (contents.drop a).take (b - a) := by
  intro l
  induction l with
  | nil =>
    intro a b h _
    cases h
    simp
  | cons s rest ih =>
    intro a b h hb
    obtain ⟨hs, hle, hrest⟩ := h
    have hab : s.2 ≤ b := ChainFrom_le _ _ _ hrest
    simp only [List.map_cons, List.join_cons, ih _ _ hrest hb]
    subst hs
    rw [show b - s.1 = (s.2 - s.1) + (b - s.2) by omega, List.take_add]
    congr 1
    rw [List.drop_drop]
    congr 2
    omega

theorem ChainFrom_bounds : ∀ (l : List (Nat × Nat)) (a b : Nat), ChainFrom a l b →
    ∀ p ∈ l, a ≤ p.1 ∧ p.1 ≤ p.2 ∧ p.2 ≤ b := by
  intro l
  induction l with
  | nil => intro a b _ p hp; simp at hp
  | cons s rest ih =>
    intro a b h p hp
    obtain ⟨hs, hle, hrest⟩ := h
    rcases List.mem_cons.mp hp with rfl | hp
    · exact ⟨le_of_eq hs.symm, hs ▸ hle, ChainFrom_le _ _ _ hrest⟩
    · have := ih _ _ hrest p hp
      subst hs
      exact ⟨le_trans hle this.1, this.2.1, this.2.2⟩

/-! ## Chain lemmas for the outline slices -/

theorem TocChainFrom_append (tocs : List TocChunk) :
    ∀ (l : List (List TocChunk)) (a b i : Nat),
      TocChainFrom tocs a l b → b ≤ i → i < tocs.length →
      TocChainFrom tocs a (l ++ [(tocs.drop b).take (i + 1 - b)]) i := by
  intro l
  induction l with
  | nil =>
    intro a b i h hbi hi
    cases h
    exact ⟨i, hbi, hi, rfl, rfl⟩
  | cons sg rest ih =>
    intro a b i h hbi hi
    obtain ⟨j, haj, hj, hsg, hrest⟩ := h
    exact ⟨j, haj, hj, hsg, ih _ _ _ hrest hbi hi⟩

theorem TocChainFrom_le (tocs : List TocChunk) :
    ∀ (l : List (List TocChunk)) (a b : Nat), TocChainFrom tocs a l b → a ≤ b := by
  intro l
  induction l with
  | nil => intro a b h; exact Nat.le_of_eq h
  | cons sg rest ih =>
    intro a b h
    obtain ⟨j, haj, -, -, hrest⟩ := h
    exact le_trans haj (ih _ _ hrest)

theorem TocChainFrom_shape (tocs : List TocChunk) :
    ∀ (l : List (List TocChunk)) (a b : Nat),
      TocChainFrom tocs a l b → b < tocs.length →
      TocSegsShape tocs a (l ++ [tocs.drop b]) := by
  intro l
  induction l with
  | nil =>
    intro a b h hb
    cases h
    exact ⟨hb, rfl⟩
  | cons sg rest ih =>
    intro a b h hb
    obtain ⟨j, haj, hj, hsg, hrest⟩ := h
    have hshape := ih _ _ hrest hb
    cases hrl : rest ++ [tocs.drop b] with
    | nil => exact absurd hrl (by simp)
    | cons x xs =>
      rw [List.cons_append, hrl]
      rw [hrl] at hshape
      exact ⟨j, haj, hj, hsg, hshape⟩

theorem TocSegsShape_ne_nil (tocs : List TocChunk) :
    ∀ (l : List (List TocChunk)) (a : Nat),
      TocSegsShape tocs a l → ∀ sg ∈ l, sg ≠ [] := by
  intro l
  induction l with
  | nil => intro a h; cases h
  | cons sg rest ih =>
    intro a h sg' hsg'
    cases rest with
    | nil =>
      obtain ⟨ha, hseq⟩ := h
      rcases List.mem_cons.mp hsg' with rfl | hmem
      · rw [hseq]
        intro hcon
        rw [List.drop_eq_nil_iff_le] at hcon
        omega
      · simp at hmem
    | cons sg2 rest2 =>
      obtain ⟨i, hai, hi, hseq, hrest⟩ := h
      rcases List.mem_cons.mp hsg' with rfl | hmem
      · rw [hseq]
        intro hcon
        have := congrArg List.length hcon
        simp only [List.length_take, List.length_drop, List.length_nil] at this
        omega
      · exact ih i hrest sg' hmem

theorem TocSegsShape_subset (tocs : List TocChunk) :
    ∀ (l : List (List TocChunk)) (a : Nat),
      TocSegsShape tocs a l → ∀ sg ∈ l, ∀ t ∈ sg, t ∈ tocs := by
  intro l
  induction l with
  | nil => intro a h; cases h
  | cons sg rest ih =>
    intro a h sg' hsg' t ht
    cases rest with
    | nil =>
      obtain ⟨-, hseq⟩ := h
      rcases List.mem_cons.mp hsg' with rfl | hmem
      · rw [hseq] at ht
        exact List.mem_of_mem_drop ht
      · simp at hmem
    | cons sg2 rest2 =>
      obtain ⟨i, -, -, hseq, hrest⟩ := h
      rcases List.mem_cons.mp hsg' with rfl | hmem
      · rw [hseq] at ht
        exact List.mem_of_mem_drop (List.mem_of_mem_take ht)
      · exact ih i hrest sg' hmem t ht

/-! ## Segmentation-loop invariants -/

theorem findTocFrom_bounds (tocs : List TocChunk) (a : Nat) (s : Str) (i : Nat)
    (h : findTocFrom tocs a s = some i) : a ≤ i ∧ i < tocs.length := by
  unfold findTocFrom at h
  cases hfi : firstIdx (fun toc => similar_text_gt toc.«section» s 8 10) (tocs.drop a) with
  | none => rw [hfi] at h; simp at h
  | some j =>
    rw [hfi] at h
    simp only [Option.map_some', Option.some_inj] at h
    have hlt := firstIdx_lt_length _ _ _ hfi
    rw [List.length_drop] at hlt
    omega

theorem segBuild_content_inv (tocs : List TocChunk) (contents : List ContentChunk) :
    ∀ (ps : List Nat) (st : SegBuildState),
      (∀ p ∈ ps, st.start ≤ p) → (∀ p ∈ ps, p ≤ contents.length) →
      ps.Sorted (· ≤ ·) →
      ChainFrom 0 st.content_segments st.start → st.start ≤ contents.length →
      ChainFrom 0 (ps.foldl (segmentStep tocs contents) st).content_segments
          (ps.foldl (segmentStep tocs contents) st).start
        ∧ (ps.foldl (segmentStep tocs contents) st).start ≤ contents.length := by
  intro ps
  induction ps with
  | nil => intro st _ _ _ hchain hstart; exact ⟨hchain, hstart⟩
  | cons p ps ih =>
    intro st h1 h2 hsort hchain hstart
    simp only [List.foldl_cons]
    obtain ⟨hhead, htail⟩ := List.sorted_cons.mp hsort
    cases hstep : findTocFrom tocs st.current_toc_start
        ((contents.getD p ⟨[], []⟩).subsection) with
    | none =>
      have heq : segmentStep tocs contents st p = st := by
        unfold segmentStep
        rw [hstep]
      rw [heq]
      exact ih st (fun q hq => h1 q (List.mem_cons_of_mem _ hq))
        (fun q hq => h2 q (List.mem_cons_of_mem _ hq)) htail hchain hstart
    | some i =>
      have heq : segmentStep tocs contents st p =
          ⟨p, i, st.content_segments ++ [(st.start, p)],
            st.toc_segments ++
              [(tocs.drop st.current_toc_start).take (i + 1 - st.current_toc_start)]⟩ := by
        unfold segmentStep
        rw [hstep]
      rw [heq]
      exact ih _ (fun q hq => hhead q hq)
        (fun q hq => h2 q (List.mem_cons_of_mem _ hq)) htail
        (ChainFrom_append _ _ _ _ hchain (h1 p (List.mem_cons_self _ _)))
        (h2 p (List.mem_cons_self _ _))

theorem segBuild_toc_inv (tocs : List TocChunk) (contents : List ContentChunk) :
    ∀ (ps : List Nat) (st : SegBuildState),
      st.current_toc_start < tocs.length →
      TocChainFrom tocs 0 st.toc_segments st.current_toc_start →
      (ps.foldl (segmentStep tocs contents) st).current_toc_start < tocs.length
        ∧ TocChainFrom tocs 0 (ps.foldl (segmentStep tocs contents) st).toc_segments
            (ps.foldl (segmentStep tocs contents) st).current_toc_start := by
  intro ps
  induction ps with
  | nil => intro st h1 h2; exact ⟨h1, h2⟩
  | cons p ps ih =>
    intro st h1 h2
    simp only [List.foldl_cons]
    cases hstep : findTocFrom tocs st.current_toc_start
        ((contents.getD p ⟨[], []⟩).subsection) with
    | none =>
      have heq : segmentStep tocs contents st p = st := by
        unfold segmentStep
        rw [hstep]
      rw [heq]
      exact ih st h1 h2
    | some i =>
      obtain ⟨hai, hilt⟩ := findTocFrom_bounds tocs _ _ i hstep
      have heq : segmentStep tocs contents st p =
          ⟨p, i, st.content_segments ++ [(st.start, p)],
            st.toc_segments ++
              [(tocs.drop st.current_toc_start).take (i + 1 - st.current_toc_start)]⟩ := by
        unfold segmentStep
        rw [hstep]
      rw [heq]
      exact ih _ hilt (TocChainFrom_append tocs _ _ _ _ h2 hai hilt)

theorem segBuild_len (tocs : List TocChunk) (contents : List ContentChunk) :
    ∀ (ps : List Nat) (st : SegBuildState),
      st.content_segments.length = st.toc_segments.length →
      (ps.foldl (segmentStep tocs contents) st).content_segments.length
        = (ps.foldl (segmentStep tocs contents) st).toc_segments.length := by
  intro ps
  induction ps with
  | nil => intro st h; exact h
  | cons p ps ih =>
    intro st h
    simp only [List.foldl_cons]
    cases hstep : findTocFrom tocs st.current_toc_start
        ((contents.getD p ⟨[], []⟩).subsection) with
    | none =>
      have heq : segmentStep tocs contents st p = st := by
        unfold segmentStep
        rw [hstep]
      rw [heq]
      exact ih st h
    | some i =>
      have heq : segmentStep tocs contents st p =
          ⟨p, i, st.content_segments ++ [(st.start, p)],
            st.toc_segments ++
              [(tocs.drop st.current_toc_start).take (i + 1 - st.current_toc_start)]⟩ := by
        unfold segmentStep
        rw [hstep]
      rw [heq]
      exact ih _ (by simp [h])

theorem contentSegments_chain (tocs : List TocChunk) (contents : List ContentChunk) :
    ChainFrom 0 (contentSegments tocs contents) contents.length := by
  unfold contentSegments buildSegmentsState
  have hmem : ∀ p ∈ find_alignment_points tocs contents, p ≤ contents.length := by
    intro p hp
    have := (fapAux_lt tocs contents 0 p hp).2
    omega
  have hsorted : (find_alignment_points tocs contents).Sorted (· ≤ ·) :=
    (fapAux_sorted tocs contents 0).imp le_of_lt
  have hinv := segBuild_content_inv tocs contents (find_alignment_points tocs contents)
    ⟨0, 0, [], []⟩ (fun p _ => Nat.zero_le p) hmem hsorted (by simp [ChainFrom])
    (Nat.zero_le _)
  exact ChainFrom_append _ _ _ _ hinv.1 hinv.2

theorem tocSegments_shape (tocs : List TocChunk) (contents : List ContentChunk)
    (htoc : tocs ≠ []) : TocSegsShape tocs 0 (tocSegments tocs contents) := by
  unfold tocSegments buildSegmentsState
  have hinv := segBuild_toc_inv tocs contents (find_alignment_points tocs contents)
    ⟨0, 0, [], []⟩ (List.length_pos.mpr htoc) (by simp [TocChainFrom])
  exact TocChainFrom_shape tocs _ _ _ hinv.2 hinv.1

theorem segments_length_eq (tocs : List TocChunk) (contents : List ContentChunk) :
    (contentSegments tocs contents).length = (tocSegments tocs contents).length := by
  unfold contentSegments tocSegments buildSegmentsState
  have := segBuild_len tocs contents (find_alignment_points tocs contents)
    ⟨0, 0, [], []⟩ rfl
  simp [this]

/-! ## Engine lemmas -/

theorem chunkStep_success (oracle : Oracle) (toc_segment : List TocChunk)
    (segment_content : List ContentChunk) (st : SegRunState) (i : Nat)
    (hcur : st.current_toc_index < toc_segment.length) :
    ∃ t k, t ∈ toc_segment ∧ pyIndex toc_segment t = some k ∧ k < toc_segment.length ∧
      chunkStep oracle toc_segment segment_content st i =
        some ⟨k, st.callCount + 1,
          st.final_results ++
            [⟨t.chapter, t.«section», (segment_content.getD i ⟨[], []⟩).subsection,
              (segment_content.getD i ⟨[], []⟩).content⟩]⟩ := by
  obtain ⟨⟨w, ws, hw⟩, hsub⟩ := toc_window_sound toc_segment st.current_toc_index hcur
  obtain ⟨m, ms, hm, hmem⟩ := match_content_to_toc_some (oracle st.callCount)
    (segment_content.getD i ⟨[], []⟩) segment_content i w ws
  have hmts : m ∈ toc_segment := by
    apply hsub
    rw [hw]
    exact hmem m (List.mem_cons_self _ _)
  obtain ⟨k, hk, hklt⟩ := pyIndex_isSome_of_mem m toc_segment hmts
  refine ⟨m, k, hmts, hk, hklt, ?_⟩
  unfold chunkStep
  dsimp only
  rw [hw, hm]
  dsimp only
  rw [hk]

theorem segment_fold_spec (oracle : Oracle) (toc_segment : List TocChunk)
    (segment_content : List ContentChunk) :
    ∀ k : Nat, k ≤ segment_content.length →
      ∀ st : SegRunState, st.current_toc_index < toc_segment.length →
      ∃ st', (List.range k).foldlM (chunkStep oracle toc_segment segment_content) st
          = some st' ∧
        st'.current_toc_index < toc_segment.length ∧
        ∃ recs, st'.final_results = st.final_results ++ recs ∧
          recs.map (fun r => (r.Subsection, r.Content))
            = (segment_content.take k).map (fun c => (c.subsection, c.content)) ∧
          ∀ r ∈ recs, ∃ t ∈ toc_segment,
            r.Chapter = t.chapter ∧ r.Section = t.«section» := by
  intro k
  induction k with
  | zero =>
    intro _ st hst
    exact ⟨st, by simp, hst, [], by simp, by simp, by simp⟩
  | succ k ih =>
    intro hk st hst
    obtain ⟨st1, h1, hcur1, recs, hres, hmap, hprov⟩ := ih (by omega) st hst
    obtain ⟨t, j, htmem, hpy, hjlt, h2⟩ :=
      chunkStep_success oracle toc_segment segment_content st1 k hcur1
    obtain ⟨c, hc⟩ : ∃ c, segment_content.get? k = some c := by
      rw [List.get?_eq_get (show k < segment_content.length by omega)]
      exact ⟨_, rfl⟩
    have hgetD : segment_content.getD k ⟨[], []⟩ = c := by
      rw [List.getD_eq_get?, hc]
      rfl
    refine ⟨⟨j, st1.callCount + 1,
        st1.final_results ++ [⟨t.chapter, t.«section», c.subsection, c.content⟩]⟩,
      ?_, hjlt, recs ++ [⟨t.chapter, t.«section», c.subsection, c.content⟩],
      ?_, ?_, ?_⟩
    · rw [List.range_succ, List.foldlM_append, h1]
      show (List.foldlM (chunkStep oracle toc_segment segment_content) st1 [k]) = _
      rw [List.foldlM_cons, h2, hgetD]
      rfl
    · rw [hres, List.append_assoc]
    · rw [List.map_append, hmap]
      have : segment_content.take (k + 1)
          = segment_content.take k ++ [c] := by
        rw [List.take_succ]
        rw [show segment_content[k]? = some c from by
          rw [← List.get?_eq_getElem?]; exact hc]
        rfl
      rw [this, List.map_append]
      rfl
    · intro r hr
      rcases List.mem_append.mp hr with hr | hr
      · exact hprov r hr
      · rcases List.mem_singleton.mp hr with rfl
        exact ⟨t, htmem, rfl, rfl⟩

theorem segRun_spec (oracle : Oracle) (content_chunks : List ContentChunk)
    (acc : Nat × List MergedRecord) (seg : (Nat × Nat) × List TocChunk)
    (hts : seg.2 ≠ []) :
    ∃ out, segRun oracle content_chunks acc seg = some out ∧
      ∃ recs, out.2 = acc.2 ++ recs ∧
        recs.map (fun r => (r.Subsection, r.Content))
          = ((content_chunks.drop seg.1.1).take (seg.1.2 - seg.1.1)).map
              (fun c => (c.subsection, c.content)) ∧
        ∀ r ∈ recs, ∃ t ∈ seg.2, r.Chapter = t.chapter ∧ r.Section = t.«section» := by
  have h0 : (0 : Nat) < seg.2.length := List.length_pos.mpr hts
  obtain ⟨st', hfold, -, recs, hres, hmap, hprov⟩ :=
    segment_fold_spec oracle seg.2
      ((content_chunks.drop seg.1.1).take (seg.1.2 - seg.1.1))
      ((content_chunks.drop seg.1.1).take (seg.1.2 - seg.1.1)).length (le_refl _)
      ⟨0, acc.1, acc.2⟩ h0
  refine ⟨(st'.callCount, st'.final_results), ?_, recs, hres, ?_, hprov⟩
  · unfold segRun
    dsimp only
    rw [hfold]
    rfl
  · rw [hmap, List.take_length]

theorem runSegments_fold_spec (oracle : Oracle) (content_chunks : List ContentChunk) :
    ∀ (segs : List ((Nat × Nat) × List TocChunk)) (acc : Nat × List MergedRecord),
      (∀ sg ∈ segs, sg.2 ≠ []) →
      ∃ out, segs.foldlM (segRun oracle content_chunks) acc = some out ∧
        ∃ recs, out.2 = acc.2 ++ recs ∧
          recs.map (fun r => (r.Subsection, r.Content))
            = ((segs.map fun sg =>
                (content_chunks.drop sg.1.1).take (sg.1.2 - sg.1.1)).join).map
                  (fun c => (c.subsection, c.content)) ∧
          ∀ r ∈ recs, ∃ sg ∈ segs, ∃ t ∈ sg.2,
            r.Chapter = t.chapter ∧ r.Section = t.«section» := by
  intro segs
  induction segs with
  | nil =>
    intro acc _
    exact ⟨acc, by simp, [], by simp, by simp, by simp⟩
  | cons sg segs ih =>
    intro acc hne
    obtain ⟨out1, h1, recs1, hres1, hmap1, hprov1⟩ :=
      segRun_spec oracle content_chunks acc sg (hne sg (List.mem_cons_self _ _))
    obtain ⟨out2, h2, recs2, hres2, hmap2, hprov2⟩ :=
      ih out1 fun s hs => hne s (List.mem_cons_of_mem _ hs)
    refine ⟨out2, ?_, recs1 ++ recs2, ?_, ?_, ?_⟩
    · rw [List.foldlM_cons, h1]
      exact h2
    · rw [hres2, hres1, List.append_assoc]
    · simp only [List.map_append, List.map_cons, List.join_cons, hmap1, hmap2]
    · intro r hr
      rcases List.mem_append.mp hr with hr | hr
      · obtain ⟨t, ht, hc, hs⟩ := hprov1 r hr
        exact ⟨sg, List.mem_cons_self _ _, t, ht, hc, hs⟩
      · obtain ⟨s, hsmem, t, ht, hc, hs⟩ := hprov2 r hr
        exact ⟨s, List.mem_cons_of_mem _ hsmem, t, ht, hc, hs⟩

/-- Master lemma: with a non-empty outline and at least one anchor, the
engine finishes without an exception, emits exactly one record per content
chunk in content order, and every record's Chapter/Section come from the
document's outline. -/
theorem process_book_spec (oracle : Oracle) (tocs : List TocChunk)
    (contents : List ContentChunk) (htoc : tocs ≠ [])
    (hpts : find_alignment_points tocs contents ≠ []) :
    ∃ res, process_book_in_segments oracle tocs contents = some res ∧
      res.map (fun r => (r.Subsection, r.Content))
        = contents.map (fun c => (c.subsection, c.content)) ∧
      ∀ r ∈ res, ∃ t ∈ tocs, r.Chapter = t.chapter ∧ r.Section = t.«section» := by
  have hchain := contentSegments_chain tocs contents
  have hshape := tocSegments_shape tocs contents htoc
  have hlen := segments_length_eq tocs contents
  set csegs := contentSegments tocs contents with hcs
  set tsegs := tocSegments tocs contents with hts
  have hzne : ∀ sg ∈ csegs.zip tsegs, sg.2 ≠ [] := by
    intro sg hsg
    have := (List.mem_zip hsg).2
    exact TocSegsShape_ne_nil tocs tsegs 0 hshape sg.2 this
  obtain ⟨out, hout, recs, hres, hmap, hprov⟩ :=
    runSegments_fold_spec oracle contents (csegs.zip tsegs) (0, []) hzne
  have hfst : (csegs.zip tsegs).map Prod.fst = csegs :=
    List.map_fst_zip csegs tsegs (le_of_eq hlen)
  have hslices : ((csegs.zip tsegs).map fun sg =>
      (contents.drop sg.1.1).take (sg.1.2 - sg.1.1))
      = csegs.map fun p => (contents.drop p.1).take (p.2 - p.1) := by
    rw [show (fun (sg : (Nat × Nat) × List TocChunk) =>
        (contents.drop sg.1.1).take (sg.1.2 - sg.1.1))
        = (fun (p : Nat × Nat) => (contents.drop p.1).take (p.2 - p.1)) ∘ Prod.fst
        from rfl]
    rw [← List.map_map, hfst]
  have hmapeq : recs.map (fun r => (r.Subsection, r.Content))
      = contents.map (fun c => (c.subsection, c.content)) := by
    rw [hmap, hslices,
      ChainFrom_slices_join contents csegs 0 contents.length hchain (le_refl _)]
    simp
  have hne2 : (find_alignment_points tocs contents).isEmpty = false := by
    cases hfa : find_alignment_points tocs contents with
    | nil => exact absurd hfa hpts
    | cons x xs => rfl
  refine ⟨recs, ?_, hmapeq, ?_⟩
  · unfold process_book_in_segments
    dsimp only
    rw [hne2]
    simp only [Bool.false_eq_true, if_false]
    unfold runSegments
    rw [← hcs, ← hts, hout]
    simp [hres]
  · intro r hr
    obtain ⟨sg, hsg, t, ht, hc, hs⟩ := hprov r hr
    have := (List.mem_zip hsg).2
    exact ⟨t, TocSegsShape_subset tocs tsegs 0 hshape sg.2 this t ht, hc, hs⟩

theorem fapAux_nil_toc : ∀ (l : List ContentChunk) (i : Nat), fapAux [] i l = [] := by
  intro l
  induction l with
  | nil => intro i; rfl
  | cons c rest ih =>
    intro i
    rw [fapAux, if_neg (by simp [chunkHasAnchor])]
    exact ih (i + 1)

/-! ## Claim: record count equals chunk count -/

/-- For every oracle behaviour, a document with non-empty outline and
content and at least one alignment point yields exactly one merged record
per content chunk. -/
theorem merged_record_count_eq_content_chunks (oracle : Oracle)
    (tocs : List TocChunk) (contents : List ContentChunk)
    (htoc : tocs ≠ []) (hcont : contents ≠ [])
    (hanch : find_alignment_points tocs contents ≠ []) :
    ∃ res, process_book_in_segments oracle tocs contents = some res ∧
      res.length = contents.length := by
  obtain ⟨res, h, hmap, -⟩ := process_book_spec oracle tocs contents htoc hanch
  refine ⟨res, h, ?_⟩
  have hlen := congrArg List.length hmap
  simpa using hlen

/-- Witness: one record for the one-chunk book, even with a failing oracle. -/
theorem merged_record_count_witness :
    ∃ res, process_book_in_segments (fun _ => none)
        [⟨0, "x".toList, "aa bb".toList⟩] [⟨"aa bb".toList, "q".toList⟩]
        = some res ∧
      res.length = ([⟨"aa bb".toList, "q".toList⟩] : List ContentChunk).length :=
  merged_record_count_eq_content_chunks (fun _ => none)
    [⟨0, "x".toList, "aa bb".toList⟩] [⟨"aa bb".toList, "q".toList⟩]
    (by decide) (by decide) (by decide)

/-! ## Claim: output order preserves content order -/

/-- The emitted records carry the Subsection/Content of the source chunks in
the source order, across segments. -/
theorem output_order_preserves_content_order (oracle : Oracle)
    (tocs : List TocChunk) (contents : List ContentChunk)
    (res : List MergedRecord) (htoc : tocs ≠ []) (hcont : contents ≠ [])
    (hanch : find_alignment_points tocs contents ≠ [])
    (hrun : process_book_in_segments oracle tocs contents = some res) :
    res.map (fun r => (r.Subsection, r.Content))
      = contents.map (fun c => (c.subsection, c.content)) := by
  obtain ⟨res', h, hmap, -⟩ := process_book_spec oracle tocs contents htoc hanch
  rw [hrun] at h
  injection h with h
  subst h
  exact hmap

/-- Witness: the one-chunk book's record carries that chunk's fields. -/
theorem output_order_witness :
    ([⟨"x".toList, "aa bb".toList, "aa bb".toList, "q".toList⟩]
        : List MergedRecord).map (fun r => (r.Subsection, r.Content))
      = ([⟨"aa bb".toList, "q".toList⟩] : List ContentChunk).map
          (fun c => (c.subsection, c.content)) :=
  output_order_preserves_content_order (fun _ => none)
    [⟨0, "x".toList, "aa bb".toList⟩] [⟨"aa bb".toList, "q".toList⟩]
    [⟨"x".toList, "aa bb".toList, "aa bb".toList, "q".toList⟩]
    (by decide) (by decide) (by decide) (by decide)

/-! ## Claim: zero anchors abort the document -/

/-- With zero alignment points the merge returns an empty list for EVERY
oracle (no oracle call can influence it), the book writes no output file,
and the batch tally counts it as one more failure without touching the
other books' outcomes. -/
theorem zero_anchors_aborts (tocs : List TocChunk) (contents : List ContentChunk)
    (h : find_alignment_points tocs contents = []) :
    (∀ oracle : Oracle, process_book_in_segments oracle tocs contents = some [])
    ∧ process_single_book_writes (some []) = false
    ∧ ∀ others : List Bool,
        batch_counts (others ++ [process_single_book_writes (some [])])
          = ((batch_counts others).1, (batch_counts others).2 + 1) := by
  refine ⟨?_, rfl, ?_⟩
  · intro oracle
    unfold process_book_in_segments
    dsimp only
    rw [h]
    rfl
  · intro others
    unfold batch_counts
    rw [List.foldl_append]
    rfl

/-- Witness: a single-word outline title yields no anchors and an aborted
book. -/
theorem zero_anchors_aborts_witness :
    (∀ oracle : Oracle, process_book_in_segments oracle
        [⟨0, "x".toList, "intro".toList⟩] [⟨"other title".toList, "b".toList⟩]
        = some [])
    ∧ process_single_book_writes (some []) = false
    ∧ ∀ others : List Bool,
        batch_counts (others ++ [process_single_book_writes (some [])])
          = ((batch_counts others).1, (batch_counts others).2 + 1) :=
  zero_anchors_aborts [⟨0, "x".toList, "intro".toList⟩]
    [⟨"other title".toList, "b".toList⟩] (by decide)

/-! ## Claim: segments partition the content stream -/

/-- The content ranges are a gapless chain from 0 to the stream length, and
their concatenation re-creates exactly the index range `[0, N)`. -/
theorem segments_partition_content_stream (tocs : List TocChunk)
    (contents : List ContentChunk) (hcont : contents ≠ []) :
    ChainFrom 0 (contentSegments tocs contents) contents.length
    ∧ ((contentSegments tocs contents).map
          fun p => List.range' p.1 (p.2 - p.1)).join
        = List.range contents.length := by
  refine ⟨contentSegments_chain tocs contents, ?_⟩
  rw [ChainFrom_range_join _ _ _ (contentSegments_chain tocs contents)]
  rw [List.range_eq_range', Nat.sub_zero]

/-- Witness: the partition property at a concrete one-chunk stream. -/
theorem segments_partition_witness :
    ChainFrom 0 (contentSegments [] [⟨"a".toList, "b".toList⟩])
        ([⟨"a".toList, "b".toList⟩] : List ContentChunk).length
    ∧ ((contentSegments [] [⟨"a".toList, "b".toList⟩]).map
          fun p => List.range' p.1 (p.2 - p.1)).join
        = List.range ([⟨"a".toList, "b".toList⟩] : List ContentChunk).length :=
  segments_partition_content_stream [] [⟨"a".toList, "b".toList⟩] (by decide)

/-! ## Claim: shape and non-emptiness of the outline slices -/

/-- The outline slices have the Segmenter shape (leading `tocs[0:i+1]`,
interior `tocs[prev:i+1]`, trailing `tocs[last:]`) and each is non-empty. -/
theorem outline_slices_shape (tocs : List TocChunk) (contents : List ContentChunk)
    (htoc : tocs ≠ []) :
    TocSegsShape tocs 0 (tocSegments tocs contents)
    ∧ ∀ sg ∈ tocSegments tocs contents, sg ≠ [] := by
  have h := tocSegments_shape tocs contents htoc
  exact ⟨h, TocSegsShape_ne_nil tocs _ 0 h⟩

/-- Witness: slice shape at a concrete one-entry outline. -/
theorem outline_slices_shape_witness :
    TocSegsShape [⟨0, "x".toList, "aa bb".toList⟩] 0
        (tocSegments [⟨0, "x".toList, "aa bb".toList⟩]
          [⟨"aa bb".toList, "q".toList⟩])
    ∧ ∀ sg ∈ tocSegments [⟨0, "x".toList, "aa bb".toList⟩]
        [⟨"aa bb".toList, "q".toList⟩], sg ≠ [] :=
  outline_slices_shape [⟨0, "x".toList, "aa bb".toList⟩]
    [⟨"aa bb".toList, "q".toList⟩] (by decide)

/-! ## Claim: classification failures fall back to the first candidate -/

/-- Counterexample to "logged as a warning": both failure branches log at
ERROR level (lines 212, 216), not warning. -/
theorem classification_log_level_counterexample :
    (match_content_to_toc (some "abc".toList) ⟨[], []⟩ [⟨[], []⟩] 0
        [⟨0, [], []⟩]).2 = [LogLevel.error]
    ∧ LogLevel.error ≠ LogLevel.warning
    ∧ (match_content_to_toc none ⟨[], []⟩ [⟨[], []⟩] 0 [⟨0, [], []⟩]).2
        = [LogLevel.error] :=
  ⟨by decide, by decide, by decide⟩

/-- Amended claim: on a raised call or an unparsable response the matcher
returns `window[0]` for every sent chunk and logs one ERROR-level entry; an
out-of-range parsed index yields `window[0]` at that position; with a
non-empty window the matcher never raises, and the engine's chunk step
always continues. -/
theorem classification_failure_fallback (o : TocChunk) (rest : List TocChunk)
    (content : ContentChunk) (content_list : List ContentChunk) (i : Nat) :
    (match_content_to_toc none content content_list i (o :: rest)
        = (some (List.replicate (numChunksSent content_list.length i) o),
            [LogLevel.error]))
    ∧ (∀ r : Str, parseIndices r = none →
        match_content_to_toc (some r) content content_list i (o :: rest)
          = (some (List.replicate (numChunksSent content_list.length i) o),
              [LogLevel.error]))
    ∧ (∀ (r : Str) (indices : List Int) (j : Nat) (idx : Int),
        parseIndices r = some indices → indices.get? j = some idx →
        ¬ (0 ≤ idx ∧ idx < (((o :: rest).length : Nat) : Int)) →
        ∃ l, (match_content_to_toc (some r) content content_list i
            (o :: rest)).1 = some l ∧ l.get? j = some o)
    ∧ (∀ resp : Option Str,
        ((match_content_to_toc resp content content_list i (o :: rest)).1).isSome)
    ∧ (∀ (oracle : Oracle) (toc_segment : List TocChunk)
        (segc : List ContentChunk) (st : SegRunState) (j : Nat),
        st.current_toc_index < toc_segment.length →
        (chunkStep oracle toc_segment segc st j).isSome) := by
  refine ⟨rfl, ?_, ?_, ?_, ?_⟩
  · intro r hr
    unfold match_content_to_toc
    dsimp only
    rw [hr]
  · intro r indices j idx hpi hj hout
    have hall : ∀ x ∈ indices,
        ((fun idx =>
            if 0 ≤ idx ∧ idx < (((o :: rest).length : Nat) : Int)
            then (o :: rest).get? idx.toNat
            else (o :: rest).get? 0) x).isSome := by
      intro x _
      dsimp only
      by_cases hin : 0 ≤ x ∧ x < (((o :: rest).length : Nat) : Int)
      · rw [if_pos hin]
        rw [List.get?_eq_get (by
          have h1 := hin.1
          have h2 := hin.2
          omega)]
        simp
      · rw [if_neg hin]
        simp
    obtain ⟨l, hl, -, -⟩ := optMapList_some _ indices hall
    refine ⟨l, ?_, ?_⟩
    · unfold match_content_to_toc
      dsimp only
      rw [hpi]
      dsimp only [selectOptions]
      rw [hl]
    · have hget := optMapList_get _ indices l hl j (by rw [hj]; rfl)
      rw [hget, hj]
      show (if 0 ≤ idx ∧ idx < (((o :: rest).length : Nat) : Int)
          then (o :: rest).get? idx.toNat else (o :: rest).get? 0) = some o
      rw [if_neg hout]
      rfl
  · intro resp
    obtain ⟨m, ms, hm, -⟩ :=
      match_content_to_toc_some resp content content_list i o rest
    rw [hm]
    rfl
  · intro oracle toc_segment segc st j hst
    obtain ⟨t, k, -, -, -, heq⟩ :=
      chunkStep_success oracle toc_segment segc st j hst
    rw [heq]
    rfl

/-! ## Claim: the cursor update always succeeds and stays in range -/

/-- The first selection is always locatable in the segment's outline slice
(`list.index` cannot raise), the cursor stays a valid index, and every
emitted record's Chapter/Section come from the document's outline. -/
theorem cursor_update_always_valid :
    (∀ (toc_segment : List TocChunk) (cursor : Nat) (resp : Option Str)
        (content : ContentChunk) (segc : List ContentChunk) (j : Nat)
        (m : TocChunk) (ms : List TocChunk),
        cursor < toc_segment.length →
        (match_content_to_toc resp content segc j
            (get_toc_window toc_segment cursor 7)).1 = some (m :: ms) →
        ∃ k, pyIndex toc_segment m = some k ∧ k < toc_segment.length)
    ∧ (∀ (oracle : Oracle) (toc_segment : List TocChunk)
        (segc : List ContentChunk) (st : SegRunState) (i : Nat),
        st.current_toc_index < toc_segment.length →
        ∃ st', chunkStep oracle toc_segment segc st i = some st'
          ∧ st'.current_toc_index < toc_segment.length)
    ∧ (∀ (oracle : Oracle) (tocs : List TocChunk)
        (contents : List ContentChunk) (res : List MergedRecord),
        process_book_in_segments oracle tocs contents = some res →
        ∀ r ∈ res, ∃ t ∈ tocs, r.Chapter = t.chapter ∧ r.Section = t.«section») := by
  refine ⟨?_, ?_, ?_⟩
  · intro toc_segment cursor resp content segc j m ms hcur hm
    obtain ⟨⟨w, ws, hw⟩, hsub⟩ := toc_window_sound toc_segment cursor hcur
    rw [hw] at hm
    obtain ⟨m', ms', hm', hmem'⟩ := match_content_to_toc_some resp content segc j w ws
    rw [hm'] at hm
    injection hm with hm
    have hm1 : m' = m := (List.cons.inj hm).1
    have hmts : m ∈ toc_segment := by
      apply hsub
      rw [hw, ← hm1]
      exact hmem' m' (List.mem_cons_self _ _)
    exact pyIndex_isSome_of_mem m toc_segment hmts
  · intro oracle toc_segment segc st i hst
    obtain ⟨t, k, -, -, hklt, heq⟩ :=
      chunkStep_success oracle toc_segment segc st i hst
    exact ⟨_, heq, hklt⟩
  · intro oracle tocs contents res hrun r hr
    by_cases hpts : find_alignment_points tocs contents = []
    · unfold process_book_in_segments at hrun
      dsimp only at hrun
      rw [hpts] at hrun
      injection hrun with hrun
      subst hrun
      simp at hr
    · have htoc : tocs ≠ [] := by
        intro h0
        apply hpts
        subst h0
        exact fapAux_nil_toc contents 0
      obtain ⟨res', h', -, hprov⟩ := process_book_spec oracle tocs contents htoc hpts
      rw [hrun] at h'
      injection h' with h'
      subst h'
      exact hprov r hr

example : pySplit "aa bb".toList = ["aa".toList, "bb".toList] := by decide
example : pySplit "  one ".toList = ["one".toList] := by decide
example : matchTotal "aa bb".toList "aa bb".toList = 5 := by decide
example : matchTotal "aa bb".toList "cc dd".toList = 1 := by decide
example : similar_text_gt "aa bb".toList "AA BB".toList 9 10 = true := by decide
example : similar_text_gt "aa bb".toList "cc dd".toList 8 10 = false := by decide
